import Mathlib

/-!
# Verification of the stdex idrec chunked-record format

Shallow embedding of `include/stdex/idrec.hpp` (chunk `open`/`close`/
`ignore`/`find` and the generic `record` adapter) over a model of the
`stdex::stream` seekable byte-stream abstraction.  `stream.hpp` itself is
not part of the sources at hand, so the stream model (`memfile`, the
`limiter` read window and `write_stream`) is modelled from the spec,
sections 4.1 and 4.2: state machine {ok, eof, fail}, reading past the
available data returns fewer bytes and sets `eof` (not `fail`), `fail` is
sticky and suppresses further side effects, a `limiter` caps the bytes a
reader may consume.  Machine integers of width `w` bytes are modelled as
`Nat` reduced modulo `2 ^ (8 * w)`; multi-byte values are stored
little-endian.
-/

/-- Little-endian encoding of `v` into exactly `w` bytes (value taken
modulo `2 ^ (8 * w)`, as storing into a `w`-byte machine integer does). -/
def encodeLE : Nat → Nat → List Nat
  | 0, _ => []
  | w + 1, v => v % 256 :: encodeLE w (v / 256)

/-- Little-endian decoding of a byte list (each entry reduced mod 256,
as every stored byte is one machine byte). -/
def decodeLE : List Nat → Nat
  | [] => 0
  | b :: bs => b % 256 + 256 * decodeLE bs

/-- Stream state machine of spec section 4.1: `{ok, eof, fail}`. -/
inductive state_t where
  | ok : state_t
  | eof : state_t
  | fail : state_t
deriving DecidableEq, Repr

/-- Model of a seekable byte stream (`stdex::stream::basic_file` /
`memory_file`): a byte buffer, a position, and the stream state. -/
structure memfile where
  data : List Nat
  pos : Nat
  st : state_t
deriving DecidableEq, Repr

namespace memfile

/-- `tell()`: current position. -/
def tell (s : memfile) : Nat := s.pos

/-- `seek(p)`: repositions the stream.  A failed stream performs no
further side effects (spec section 3); otherwise the state is reset to ok. -/
def seek (s : memfile) (p : Nat) : memfile :=
  if s.st = state_t.fail then s else { s with pos := p, st := state_t.ok }

/-- `read(dst, n)`: returns up to `n` bytes from the current position.
Reading past the available data returns fewer bytes and sets `eof`,
not `fail` (spec section 4.1). -/
def readBytes (s : memfile) (n : Nat) : List Nat × memfile :=
  if s.st = state_t.fail then ([], s)
  else if s.pos + n ≤ s.data.length then
    ((s.data.drop s.pos).take n, { s with pos := s.pos + n, st := state_t.ok })
  else
    ((s.data.drop s.pos).take n, { s with pos := s.data.length, st := state_t.eof })

/-- Typed extraction `stream >> value` of a `w`-byte integer: reads `w`
bytes and succeeds only when the stream stayed ok (spec section 4.1). -/
def readVal (w : Nat) (s : memfile) : Option Nat × memfile :=
  let r := readBytes s w
  if r.2.st = state_t.ok then (some (decodeLE r.1), r.2) else (none, r.2)

/-- `write(src, n)`: overwrites/extends the buffer at the current
position (zero-filling any gap after a seek past the end). A failed
stream performs no side effects. -/
def writeBytes (s : memfile) (bs : List Nat) : memfile :=
  if s.st = state_t.fail then s
  else
    { data := s.data.take s.pos ++ List.replicate (s.pos - s.data.length) 0
        ++ bs ++ s.data.drop (s.pos + bs.length),
      pos := s.pos + bs.length,
      st := state_t.ok }

/-- `skip(n)`: advances the position by `n` bytes; clamps to the end of
data and sets `eof` when fewer than `n` bytes remain. -/
def skip (s : memfile) (n : Nat) : memfile :=
  if s.st = state_t.fail then s
  else if s.pos + n ≤ s.data.length then { s with pos := s.pos + n, st := state_t.ok }
  else { s with pos := s.data.length, st := state_t.eof }

/-- `dst.write_stream(src)`: copies `src` from its current position to
its end into `dst` (spec-modelled; used by the `record` writer for
non-seekable streams). -/
def writeStream (dst src : memfile) : memfile :=
  dst.writeBytes (src.data.drop src.pos)

end memfile

namespace stdex.idrec

/-- `padding<T_SIZE, ALIGN>(size)` = `(ALIGN - (size % ALIGN)) % ALIGN`
(idrec.hpp, `padding`).  No intermediate wraps: `size % ALIGN < ALIGN`. -/
def padding (align size : Nat) : Nat :=
  (align - size % align) % align

/-- `ignore<T_SIZE, ALIGN>(stream)` (idrec.hpp, both overloads): read the
SIZE field, then `size += padding(size)` in `T_SIZE` arithmetic (hence
the reduction modulo `2 ^ (8 * wsz)`) and skip that many bytes. -/
def ignore (wsz align : Nat) (s : memfile) : Bool × memfile :=
  match memfile.readVal wsz s with
  | (none, s') => (false, s')
  | (some size, s') =>
    let s2 := s'.skip ((size + padding align size) % 2 ^ (8 * wsz))
    if s2.st = state_t.ok then (true, s2) else (false, s2)

/-- `find<T_ID, T_SIZE, ALIGN>(stream, id, end)` loop body (idrec.hpp,
both overloads), instrumented with a fuel bound (the C++ loop terminates
because every iteration either consumes at least one byte or fails) and a
counter of header (ID) read attempts.  `none` as `end?` is the unbounded
sentinel (`fpos_max` / `-1`). -/
def findAux (wid wsz align : Nat) (id : Nat) (end? : Option Nat) :
    Nat → memfile → Nat → Bool × memfile × Nat
  | 0, s, cnt => (false, s, cnt)
  | fuel + 1, s, cnt =>
    if (match end? with | none => true | some e => s.pos < e) then
      match memfile.readVal wid s with
      | (none, s') => (false, s', cnt + 1)
      | (some rid, s') =>
        if rid = id then (true, s', cnt + 1)
        else
          let r := ignore wsz align s'
          findAux wid wsz align id end? fuel r.2 (cnt + 1)
    else (false, s, cnt)

/-- `find<T_ID, T_SIZE, ALIGN>(stream, id, end)` (idrec.hpp): the fuel
`s.data.length + 1` dominates the iteration count, since every successful
ID read advances the position by `wid ≥ 1` bytes within the buffer.
Returns (found, stream, number of ID read attempts). -/
def find (wid wsz align : Nat) (id : Nat) (end? : Option Nat) (s : memfile) :
    Bool × memfile × Nat :=
  findAux wid wsz align id end? (s.data.length + 1) s 0

/-- `open<T_ID, T_SIZE>(std::ostream&, id)` (idrec.hpp lines 183-198):
remembers `tellp`, checks for failure before the ID write and between the
ID write and the SIZE placeholder write, returning the `-1` sentinel
(`none`) on failure. -/
def openStd (wid wsz : Nat) (id : Nat) (s : memfile) : Option Nat × memfile :=
  let start := s.tell
  if s.st = state_t.fail then (none, s)
  else
    let s1 := s.writeBytes (encodeLE wid id)
    if s1.st = state_t.fail then (none, s1)
    else (some start, s1.writeBytes (encodeLE wsz 0))

/-- `open<T_ID, T_SIZE>(stdex::stream::basic_file&, id)` (idrec.hpp lines
208-220): writes ID then a zero SIZE placeholder, no failure checks,
always returns the start position. -/
def openFile (wid wsz : Nat) (id : Nat) (s : memfile) : Nat × memfile :=
  let start := s.tell
  let s1 := s.writeBytes (encodeLE wid id)
  (start, s1.writeBytes (encodeLE wsz 0))

/-- `close<T_ID, T_SIZE, ALIGN>(stream, start)` (idrec.hpp, both
overloads): `size = (tell - start - wid - wsz)` truncated to `T_SIZE`,
append `padding(size)` zero bytes, then — unless the stream has failed —
seek back, overwrite the placeholder, seek to the padded end and return
it.  On failure the `fpos_max` / `-1` sentinel (`none`) is returned with
no further seek. -/
def close (wid wsz align : Nat) (s : memfile) (start : Nat) : Option Nat × memfile :=
  let endp := s.tell
  let size := (endp - start - wid - wsz) % 2 ^ (8 * wsz)
  let remainder := padding align size
  let s1 := if remainder ≠ 0 then s.writeBytes (List.replicate remainder 0) else s
  let endp2 := endp + remainder
  if s1.st ≠ state_t.ok then (none, s1)
  else
    let s2 := s1.seek (start + wid)
    let s3 := s2.writeBytes (encodeLE wsz size)
    (some endp2, s3.seek endp2)

/-- `operator <<(stdex::stream::basic_file&, record)` (idrec.hpp lines
438-448): open, bail out if not ok, serialize (the serializer is
abstracted by the byte list `payload` it writes), close.  -/
def recordWriteFile (wid wsz align : Nat) (id : Nat) (payload : List Nat)
    (s : memfile) : memfile :=
  let r := openFile wid wsz id s
  if r.2.st ≠ state_t.ok then r.2
  else
    let s2 := r.2.writeBytes payload
    (close wid wsz align s2 r.1).2

/-- `operator <<(stdex::stream::basic&, record)` (idrec.hpp lines
458-471): stage the record in a temporary `memory_file`, then copy it
out with `write_stream`. -/
def recordWriteBasic (wid wsz align : Nat) (id : Nat) (payload : List Nat)
    (s : memfile) : memfile :=
  let temp : memfile := ⟨[], 0, state_t.ok⟩
  let r := openFile wid wsz id temp
  if r.2.st ≠ state_t.ok then s
  else
    let t2 := r.2.writeBytes payload
    let t3 := (close wid wsz align t2 r.1).2
    s.writeStream (t3.seek 0)

/-- `operator >>(stdex::stream::basic_file&, record)` (idrec.hpp lines
509-530): read SIZE, hand the deserializer a `limiter`-bounded window of
at most SIZE bytes (spec section 4.2), bail out if the limiter failed,
then `size += padding(size)` in `T_SIZE` arithmetic and seek to
`start + size`.  The deserializer is abstracted as a function from the
visible byte window to an optional (value, bytes consumed) pair; `none`
models a deserialization failure (limiter state `fail`). -/
def recordReadFile {α : Type} (wsz align : Nat)
    (deser : List Nat → Option (α × Nat)) (s : memfile) : Option α × memfile :=
  match memfile.readVal wsz s with
  | (none, s') => (none, s')
  | (some size, s') =>
    let start := s'.pos
    match deser ((s'.data.drop start).take size) with
    | none => (none, s')
    | some (a, n) =>
      let s2 := { s' with pos := start + min n size }
      (some a, s2.seek (start + (size + padding align size) % 2 ^ (8 * wsz)))

/-- `operator >>(std::istream&, record)` (idrec.hpp lines 481-499): read
SIZE, then deserialize **directly from the stream with no bound** (the
source's own TODO on line 492 admits the deserializer can read past the
record data), then seek to `start + size + padding` in `T_SIZE`
arithmetic. -/
def recordReadStd {α : Type} (wsz align : Nat)
    (deser : List Nat → Option (α × Nat)) (s : memfile) : Option α × memfile :=
  match memfile.readVal wsz s with
  | (none, s') => (none, s')
  | (some size, s') =>
    let start := s'.pos
    match deser (s'.data.drop start) with
    | none => (none, s')
    | some (a, n) =>
      let s2 := { s' with pos := start + n }
      (some a, s2.seek (start + (size + padding align size) % 2 ^ (8 * wsz)))

end stdex.idrec

/-! ## Codec lemmas -/

theorem encodeLE_length (w v : Nat) : (encodeLE w v).length = w := by
  induction w generalizing v with
  | zero => rfl
  | succ k ih => simp [encodeLE, ih]

theorem pow256_eq (w : Nat) : (256 : Nat) ^ w = 2 ^ (8 * w) := by
  have h : (256 : Nat) = 2 ^ 8 := by norm_num
  rw [h, ← pow_mul]

theorem mod_mul_256_decomp (v K : Nat) (hK : 0 < K) :
    v % (K * 256) = v % 256 + 256 * (v / 256 % K) := by
  have h1 : 256 * (v / 256) + v % 256 = v := Nat.div_add_mod v 256
  have h2 : K * (v / 256 / K) + v / 256 % K = v / 256 := Nat.div_add_mod (v / 256) K
  have key : (K * 256) * (v / 256 / K) + (256 * (v / 256 % K) + v % 256) = v := by
    calc (K * 256) * (v / 256 / K) + (256 * (v / 256 % K) + v % 256)
        = 256 * (K * (v / 256 / K) + v / 256 % K) + v % 256 := by ring
      _ = 256 * (v / 256) + v % 256 := by rw [h2]
      _ = v := h1
  have hb : v / 256 % K < K := Nat.mod_lt _ hK
  have hr : v % 256 < 256 := Nat.mod_lt _ (by norm_num)
  calc v % (K * 256)
      = ((K * 256) * (v / 256 / K) + (256 * (v / 256 % K) + v % 256)) % (K * 256) := by
        rw [key]
    _ = (256 * (v / 256 % K) + v % 256) % (K * 256) := Nat.mul_add_mod _ _ _
    _ = 256 * (v / 256 % K) + v % 256 := Nat.mod_eq_of_lt (by omega)
    _ = v % 256 + 256 * (v / 256 % K) := by omega

theorem decodeLE_encodeLE (w v : Nat) : decodeLE (encodeLE w v) = v % 2 ^ (8 * w) := by
  rw [← pow256_eq]
  induction w generalizing v with
  | zero => simp [encodeLE, decodeLE, Nat.mod_one]
  | succ k ih =>
    have hK : 0 < (256 : Nat) ^ k := Nat.pos_pow_of_pos k (by norm_num)
    have hs : (256 : Nat) ^ (k + 1) = 256 ^ k * 256 := pow_succ 256 k
    simp only [encodeLE, decodeLE, ih]
    rw [hs, mod_mul_256_decomp v (256 ^ k) hK]
    omega

theorem decodeLE_lt (bs : List Nat) : decodeLE bs < 256 ^ bs.length := by
  induction bs with
  | nil => simp [decodeLE]
  | cons b rest ih =>
    simp only [decodeLE, List.length_cons, pow_succ]
    have hb : b % 256 < 256 := Nat.mod_lt _ (by norm_num)
    omega

/-! ## Stream layout lemmas -/

theorem readBytes_at (w v : Nat) (a rest : List Nat) :
    memfile.readBytes ⟨a ++ (encodeLE w v ++ rest), a.length, state_t.ok⟩ w =
      (encodeLE w v,
       ⟨a ++ (encodeLE w v ++ rest), a.length + w, state_t.ok⟩) := by
  have hlen : (a ++ (encodeLE w v ++ rest)).length = a.length + w + rest.length := by
    simp [encodeLE_length]; omega
  have hdrop : (a ++ (encodeLE w v ++ rest)).drop a.length = encodeLE w v ++ rest :=
    List.drop_left a _
  have htake : (encodeLE w v ++ rest).take w = encodeLE w v :=
    List.take_left' (encodeLE_length w v)
  simp only [memfile.readBytes]
  rw [if_neg (by simp)]
  rw [if_pos (by omega)]
  rw [hdrop, htake]

theorem readVal_at (w v : Nat) (a rest : List Nat) :
    memfile.readVal w ⟨a ++ (encodeLE w v ++ rest), a.length, state_t.ok⟩ =
      (some (v % 2 ^ (8 * w)),
       ⟨a ++ (encodeLE w v ++ rest), a.length + w, state_t.ok⟩) := by
  simp only [memfile.readVal, readBytes_at, decodeLE_encodeLE]
  simp

theorem readBytes_short (w : Nat) (s : memfile) (hok : s.st = state_t.ok)
    (hshort : s.data.length < s.pos + w) :
    memfile.readBytes s w =
      ((s.data.drop s.pos).take w, ⟨s.data, s.data.length, state_t.eof⟩) := by
  simp only [memfile.readBytes, hok]
  rw [if_neg (by simp), if_neg (by omega)]

theorem readVal_short (w : Nat) (s : memfile) (hok : s.st = state_t.ok)
    (hshort : s.data.length < s.pos + w) :
    memfile.readVal w s =
      (none, ⟨s.data, s.data.length, state_t.eof⟩) := by
  simp only [memfile.readVal, readBytes_short w s hok hshort]
  rw [if_neg (by simp)]

theorem writeBytes_append (s : memfile) (bs : List Nat) (hok : s.st = state_t.ok)
    (hpos : s.pos = s.data.length) :
    memfile.writeBytes s bs = ⟨s.data ++ bs, s.pos + bs.length, state_t.ok⟩ := by
  simp only [memfile.writeBytes, hok]
  rw [if_neg (by simp)]
  have h1 : s.data.take s.pos = s.data := by rw [hpos]; exact List.take_length s.data
  have h2 : s.pos - s.data.length = 0 := by omega
  have h3 : s.data.drop (s.pos + bs.length) = [] := List.drop_eq_nil_of_le (by omega)
  rw [h1, h2, h3]
  simp

theorem writeBytes_overwrite (s : memfile) (bs : List Nat) (hok : s.st = state_t.ok)
    (hpos : s.pos + bs.length ≤ s.data.length) :
    memfile.writeBytes s bs =
      ⟨s.data.take s.pos ++ bs ++ s.data.drop (s.pos + bs.length),
       s.pos + bs.length, state_t.ok⟩ := by
  simp only [memfile.writeBytes, hok]
  rw [if_neg (by simp)]
  have h2 : s.pos - s.data.length = 0 := by omega
  rw [h2]
  simp

theorem skip_within (s : memfile) (n : Nat) (hok : s.st = state_t.ok)
    (h : s.pos + n ≤ s.data.length) :
    memfile.skip s n = ⟨s.data, s.pos + n, state_t.ok⟩ := by
  simp only [memfile.skip, hok]
  rw [if_neg (by simp), if_pos h]

theorem skip_past (s : memfile) (n : Nat) (hok : s.st = state_t.ok)
    (h : s.data.length < s.pos + n) :
    memfile.skip s n = ⟨s.data, s.data.length, state_t.eof⟩ := by
  simp only [memfile.skip, hok]
  rw [if_neg (by simp), if_neg (by omega)]

theorem seek_ok (s : memfile) (p : Nat) (hok : s.st ≠ state_t.fail) :
    memfile.seek s p = ⟨s.data, p, state_t.ok⟩ := by
  simp only [memfile.seek]
  rw [if_neg hok]

/-- A chunk for layout-level reasoning about `find`: an ID and a payload;
its serialized form is `ID | SIZE | DATA | PAD` (spec section 6). -/
structure chunk where
  cid : Nat
  payload : List Nat
deriving DecidableEq, Repr

/-- The byte image of one chunk. -/
def chunkBytes (wid wsz align : Nat) (c : chunk) : List Nat :=
  encodeLE wid c.cid ++ encodeLE wsz c.payload.length ++ c.payload
    ++ List.replicate (stdex.idrec.padding align c.payload.length) 0

/-- The byte image of a sequence of chunks. -/
def chunksBytes (wid wsz align : Nat) : List chunk → List Nat
  | [] => []
  | c :: cs => chunkBytes wid wsz align c ++ chunksBytes wid wsz align cs

/-- Well-formedness of a chunk: its ID is representable in `T_ID` and its
data-plus-padding extent does not overflow `T_SIZE`. -/
def chunkWF (wid wsz align : Nat) (c : chunk) : Prop :=
  c.cid < 2 ^ (8 * wid) ∧
  c.payload.length + stdex.idrec.padding align c.payload.length < 2 ^ (8 * wsz)

instance (wid wsz align : Nat) (c : chunk) : Decidable (chunkWF wid wsz align c) := by
  unfold chunkWF; infer_instance

/-! ## Claim theorems -/

/-- C7: for every size `S` and alignment `ALIGN > 0`,
`padding<T_SIZE, ALIGN>(S)` returns `P` with `0 ≤ P < ALIGN` and
`(S + P) % ALIGN = 0`.  (`0 ≤ P` is inherent in the `Nat` model.) -/
theorem padding_law (align size : Nat) (halign : 0 < align) :
    stdex.idrec.padding align size < align ∧
      (size + stdex.idrec.padding align size) % align = 0 := by
  have hpad : stdex.idrec.padding align size < align :=
    Nat.mod_lt _ halign
  refine ⟨hpad, ?_⟩
  unfold stdex.idrec.padding
  by_cases h : size % align = 0
  · rw [h, Nat.sub_zero, Nat.mod_self, Nat.add_zero]
    exact h
  · have h1 : size % align < align := Nat.mod_lt _ halign
    rw [Nat.mod_eq_of_lt (by omega : align - size % align < align)]
    have h3 : align * (size / align) + size % align = size := Nat.div_add_mod size align
    have h2 : size + (align - size % align) = align * (size / align + 1) := by
      rw [Nat.mul_add, Nat.mul_one]; omega
    rw [h2, Nat.mul_mod_right]

/-- Witness for C7 at `ALIGN = 4`, `S = 7`. -/
theorem padding_law_witness :
    stdex.idrec.padding 4 7 < 4 ∧ (7 + stdex.idrec.padding 4 7) % 4 = 0 :=
  padding_law 4 7 (by decide)

/-- Helper: full behavior of `ignore` at a SIZE field holding `S` with
enough following bytes; the advance is modular in `T_SIZE`. -/
theorem ignore_at (wsz align S : Nat) (a rest : List Nat)
    (hS : S < 2 ^ (8 * wsz))
    (hrest : (S + stdex.idrec.padding align S) % 2 ^ (8 * wsz) ≤ rest.length) :
    stdex.idrec.ignore wsz align ⟨a ++ (encodeLE wsz S ++ rest), a.length, state_t.ok⟩ =
      (true, ⟨a ++ (encodeLE wsz S ++ rest),
              a.length + wsz + (S + stdex.idrec.padding align S) % 2 ^ (8 * wsz),
              state_t.ok⟩) := by
  have hlen : (a ++ (encodeLE wsz S ++ rest)).length = a.length + wsz + rest.length := by
    simp [encodeLE_length]; omega
  simp only [stdex.idrec.ignore, readVal_at, Nat.mod_eq_of_lt hS]
  rw [skip_within _ _ rfl (by simp only []; omega)]
  simp

/-- C9: `ignore` computes the skip amount `size + padding(size)` in
`T_SIZE` modular arithmetic: on a stream whose SIZE field holds `S`, the
position advances by `sizeof(T_SIZE)` plus
`(S + padding(S)) mod 2^(8*sizeof(T_SIZE))` — not by the full DATA+PAD
extent when that sum overflows. -/
theorem ignore_modular (wsz align S : Nat) (a rest : List Nat)
    (hS : S < 2 ^ (8 * wsz))
    (hrest : (S + stdex.idrec.padding align S) % 2 ^ (8 * wsz) ≤ rest.length) :
    stdex.idrec.ignore wsz align ⟨a ++ (encodeLE wsz S ++ rest), a.length, state_t.ok⟩ =
      (true, ⟨a ++ (encodeLE wsz S ++ rest),
              a.length + wsz + (S + stdex.idrec.padding align S) % 2 ^ (8 * wsz),
              state_t.ok⟩) :=
  ignore_at wsz align S a rest hS hrest

/-- Witness for C9: `T_SIZE` one byte, `ALIGN = 4`, declared size 255:
`255 + padding(255) = 256` wraps to 0, so only the SIZE field itself is
consumed. -/
theorem ignore_modular_witness :
    stdex.idrec.ignore 1 4 ⟨[255], 0, state_t.ok⟩ =
      (true, ⟨[255], 1, state_t.ok⟩) := by
  have h := ignore_modular 1 4 255 [] [] (by decide) (by decide)
  simpa [encodeLE, stdex.idrec.padding] using h

set_option maxRecDepth 4096

/-- C6 counterexample: `T_SIZE` one byte, `ALIGN = 4`, a record with
declared size 255 followed by its full 256-byte DATA+PAD extent.
`ignore` succeeds but the position advances only by 1 (the SIZE field),
not by `sizeof(T_SIZE) + size + padding(size) = 257`, because
`size += padding(size)` wraps to 0 in `T_SIZE` arithmetic. -/
theorem ignore_advance_cx :
    stdex.idrec.ignore 1 4 ⟨255 :: List.replicate 256 0, 0, state_t.ok⟩ =
      (true, ⟨255 :: List.replicate 256 0, 1, state_t.ok⟩) ∧
    (1 : Nat) ≠ 0 + 1 + 255 + stdex.idrec.padding 4 255 := by
  constructor
  · decide
  · decide

/-- C6 (amended): provided `size + padding(size)` does not overflow
`T_SIZE`, `ignore` on an ok stream positioned at a SIZE field holding
`S`, with the full DATA+PAD extent present, returns true and advances
the position by exactly `sizeof(T_SIZE) + S + padding(S)` bytes without
touching the buffer content. -/
theorem ignore_exact_advance (wsz align S : Nat) (a rest : List Nat)
    (hS : S < 2 ^ (8 * wsz))
    (hnov : S + stdex.idrec.padding align S < 2 ^ (8 * wsz))
    (hrest : S + stdex.idrec.padding align S ≤ rest.length) :
    stdex.idrec.ignore wsz align ⟨a ++ (encodeLE wsz S ++ rest), a.length, state_t.ok⟩ =
      (true, ⟨a ++ (encodeLE wsz S ++ rest),
              a.length + wsz + (S + stdex.idrec.padding align S),
              state_t.ok⟩) := by
  have hlen : (a ++ (encodeLE wsz S ++ rest)).length = a.length + wsz + rest.length := by
    simp [encodeLE_length]; omega
  simp only [stdex.idrec.ignore, readVal_at, Nat.mod_eq_of_lt hS, Nat.mod_eq_of_lt hnov]
  rw [skip_within _ _ rfl (by simp only []; omega)]
  simp

/-- Witness for C6 (amended): one-byte sizes, `ALIGN = 4`, size 3 with
one padding byte: the position advances by 1 + 3 + 1 = 5. -/
theorem ignore_exact_advance_witness :
    stdex.idrec.ignore 1 4 ⟨[3, 10, 11, 12, 0], 0, state_t.ok⟩ =
      (true, ⟨[3, 10, 11, 12, 0], 5, state_t.ok⟩) := by
  have h := ignore_exact_advance 1 4 3 [] [10, 11, 12, 0] (by decide) (by decide) (by decide)
  simpa [encodeLE, stdex.idrec.padding] using h

/-- C8: on a stream in the failed state, each idrec operation cited by
the spec's failure-semantics rule — `open` (the checked `std::ostream`
overload), `close` and `ignore` — returns its failure sentinel
immediately and performs no further seek or write: the returned stream
is the input stream, position and content untouched.  (The stream model
is the spec's: `fail` is sticky and suppresses side effects.) -/
theorem fail_short_circuit (wid wsz align start idv : Nat) (s : memfile)
    (hfail : s.st = state_t.fail) :
    stdex.idrec.openStd wid wsz idv s = (none, s) ∧
    stdex.idrec.close wid wsz align s start = (none, s) ∧
    stdex.idrec.ignore wsz align s = (false, s) := by
  refine ⟨?_, ?_, ?_⟩
  · simp [stdex.idrec.openStd, hfail]
  · simp [stdex.idrec.close, memfile.writeBytes, hfail]
  · simp [stdex.idrec.ignore, memfile.readVal, memfile.readBytes, hfail]

/-- Witness for C8 on a concrete failed stream. -/
theorem fail_short_circuit_witness :
    stdex.idrec.openStd 1 1 9 ⟨[1, 2, 3], 2, state_t.fail⟩ =
      (none, ⟨[1, 2, 3], 2, state_t.fail⟩) ∧
    stdex.idrec.close 1 1 4 ⟨[1, 2, 3], 2, state_t.fail⟩ 0 =
      (none, ⟨[1, 2, 3], 2, state_t.fail⟩) ∧
    stdex.idrec.ignore 1 4 ⟨[1, 2, 3], 2, state_t.fail⟩ =
      (false, ⟨[1, 2, 3], 2, state_t.fail⟩) :=
  fail_short_circuit 1 1 4 0 9 ⟨[1, 2, 3], 2, state_t.fail⟩ rfl

/-- C1: at a concrete failing input the record adapter's `std::istream`
overload hands the deserializer the *unbounded* remaining stream (the
source's own TODO on idrec.hpp line 492 concedes this): a record with
SIZE = 1 and data byte 7 is followed by the byte 99 of the next chunk; a
deserializer that consumes two bytes decodes `(7, 99)`, observing the
byte beyond the record data, while the bounded `basic_file` overload
(whose `limiter` window has exactly SIZE bytes) makes the same
deserializer fail instead of overrunning. -/
theorem recordReadStd_overruns_record :
    (stdex.idrec.recordReadStd (α := Nat × Nat) 1 1
        (fun bs => match bs with | a :: b :: _ => some ((a, b), 2) | _ => none)
        ⟨[1, 7, 99], 0, state_t.ok⟩).1 = some (7, 99) ∧
    (stdex.idrec.recordReadFile (α := Nat × Nat) 1 1
        (fun bs => match bs with | a :: b :: _ => some ((a, b), 2) | _ => none)
        ⟨[1, 7, 99], 0, state_t.ok⟩).1 = none := by
  constructor
  · rfl
  · rfl

/-- C3 counterexample: one-byte `T_SIZE`, `ALIGN = 1`, a record whose
content is 256 bytes (`[ID, placeholder] ++ 256 content bytes`, position
at the end).  `close` stores `(258 - 0 - 1 - 1) mod 256 = 0` in the size
field — not the 256 bytes actually written between open and close, as
the claim (and the spec's size-field invariant) state. -/
theorem close_size_cx :
    decodeLE (((stdex.idrec.close 1 1 1
        ⟨[5, 0] ++ List.replicate 256 7, 258, state_t.ok⟩ 0).2.data.drop 1).take 1)
      = 0 ∧
    (258 : Nat) - 0 - 1 - 1 = 256 ∧ (0 : Nat) ≠ 256 := by
  refine ⟨by decide, by decide, by decide⟩

/-- Helper: full behavior of `close` on an ok stream positioned at the
end of its data, past the record header. -/
theorem close_at_end (wid wsz align : Nat) (c : List Nat) (start : Nat)
    (hdr : start + wid + wsz ≤ c.length) :
    stdex.idrec.close wid wsz align ⟨c, c.length, state_t.ok⟩ start =
      (some (c.length + stdex.idrec.padding align ((c.length - start - wid - wsz) % 2 ^ (8 * wsz))),
       ⟨c.take (start + wid)
          ++ encodeLE wsz ((c.length - start - wid - wsz) % 2 ^ (8 * wsz))
          ++ (c.drop (start + wid + wsz)
          ++ List.replicate (stdex.idrec.padding align ((c.length - start - wid - wsz) % 2 ^ (8 * wsz))) 0),
        c.length + stdex.idrec.padding align ((c.length - start - wid - wsz) % 2 ^ (8 * wsz)),
        state_t.ok⟩) := by
  set size := (c.length - start - wid - wsz) % 2 ^ (8 * wsz) with hsize
  set rem := stdex.idrec.padding align size with hrem
  unfold stdex.idrec.close
  simp only [memfile.tell, ← hsize, ← hrem]
  have hif : (if rem ≠ 0
        then memfile.writeBytes ⟨c, c.length, state_t.ok⟩ (List.replicate rem 0)
        else (⟨c, c.length, state_t.ok⟩ : memfile)) =
      ⟨c ++ List.replicate rem 0, c.length + rem, state_t.ok⟩ := by
    by_cases h0 : rem = 0
    · rw [if_neg (by simp [h0]), h0]
      simp
    · rw [if_pos h0, writeBytes_append _ _ rfl rfl]
      simp
  rw [hif]
  rw [if_neg (by simp)]
  rw [seek_ok ⟨c ++ List.replicate rem 0, c.length + rem, state_t.ok⟩ (start + wid) (by simp)]
  have hover : memfile.writeBytes ⟨c ++ List.replicate rem 0, start + wid, state_t.ok⟩
      (encodeLE wsz size) =
      ⟨(c ++ List.replicate rem 0).take (start + wid) ++ encodeLE wsz size
         ++ (c ++ List.replicate rem 0).drop (start + wid + wsz),
       start + wid + wsz, state_t.ok⟩ := by
    have h := writeBytes_overwrite ⟨c ++ List.replicate rem 0, start + wid, state_t.ok⟩
      (encodeLE wsz size) rfl (by simp [encodeLE_length]; omega)
    simpa [encodeLE_length, Nat.add_assoc] using h
  rw [hover]
  rw [seek_ok _ _ (by simp)]
  rw [List.take_append_of_le_length (by omega), List.drop_append_of_le_length (by omega)]

/-- C3 (amended): on an ok seekable stream whose position (= the data
end) is past the header, `close` appends
`padding = (ALIGN - size mod ALIGN) mod ALIGN` zero bytes, overwrites
the placeholder at `start + sizeof(ID)` with
`size = (current_pos - start - header_size) mod 2^(8*sizeof(T_SIZE))`
(the exact byte count whenever it fits in `T_SIZE`), leaves the stream
positioned at the padded end and returns that end. -/
theorem close_spec (wid wsz align : Nat) (c : List Nat) (start : Nat)
    (hdr : start + wid + wsz ≤ c.length) :
    stdex.idrec.close wid wsz align ⟨c, c.length, state_t.ok⟩ start =
      (some (c.length + stdex.idrec.padding align ((c.length - start - wid - wsz) % 2 ^ (8 * wsz))),
       ⟨c.take (start + wid)
          ++ encodeLE wsz ((c.length - start - wid - wsz) % 2 ^ (8 * wsz))
          ++ (c.drop (start + wid + wsz)
          ++ List.replicate (stdex.idrec.padding align ((c.length - start - wid - wsz) % 2 ^ (8 * wsz))) 0),
        c.length + stdex.idrec.padding align ((c.length - start - wid - wsz) % 2 ^ (8 * wsz)),
        state_t.ok⟩) :=
  close_at_end wid wsz align c start hdr

/-- Witness for C3 (amended): `T_ID`/`T_SIZE` one byte, `ALIGN = 4`,
three content bytes: `close` stores size 3, appends one padding byte,
ends (and reports) position 6. -/
theorem close_spec_witness :
    stdex.idrec.close 1 1 4 ⟨[9, 0, 7, 8, 9], 5, state_t.ok⟩ 0 =
      (some 6, ⟨[9, 3, 7, 8, 9, 0], 6, state_t.ok⟩) := by
  have h := close_spec 1 1 4 [9, 0, 7, 8, 9] 0 (by decide)
  simpa [encodeLE, stdex.idrec.padding] using h

/-- Helper: `open` on an ok stream positioned at its end appends
`ID | 0` and reports the start position. -/
theorem openFile_append (wid wsz idv : Nat) (s : memfile)
    (hok : s.st = state_t.ok) (hpos : s.pos = s.data.length) :
    stdex.idrec.openFile wid wsz idv s =
      (s.pos, ⟨s.data ++ (encodeLE wid idv ++ encodeLE wsz 0),
               s.pos + (wid + wsz), state_t.ok⟩) := by
  simp only [stdex.idrec.openFile]
  rw [writeBytes_append s _ hok hpos]
  rw [writeBytes_append ⟨s.data ++ encodeLE wid idv, s.pos + (encodeLE wid idv).length, state_t.ok⟩
        _ rfl (by simp [encodeLE_length, hpos])]
  simp [memfile.tell, encodeLE_length]
  omega

/-- Helper: the full byte-level effect of a `record` write on a seekable
stream positioned at its end: it appends `ID | SIZE | DATA | PAD` with
`SIZE = payload length mod 2^(8*wsz)`. -/
theorem recordWriteFile_append (wid wsz align idv : Nat) (payload : List Nat) (s : memfile)
    (hok : s.st = state_t.ok) (hpos : s.pos = s.data.length) :
    stdex.idrec.recordWriteFile wid wsz align idv payload s =
      ⟨(s.data ++ encodeLE wid idv) ++ encodeLE wsz (payload.length % 2 ^ (8 * wsz))
         ++ (payload ++ List.replicate
              (stdex.idrec.padding align (payload.length % 2 ^ (8 * wsz))) 0),
       s.data.length + (wid + wsz) + payload.length
         + stdex.idrec.padding align (payload.length % 2 ^ (8 * wsz)),
       state_t.ok⟩ := by
  simp only [stdex.idrec.recordWriteFile]
  rw [openFile_append wid wsz idv s hok hpos]
  rw [if_neg (by simp)]
  rw [writeBytes_append ⟨s.data ++ (encodeLE wid idv ++ encodeLE wsz 0), s.pos + (wid + wsz), state_t.ok⟩
        payload rfl (by simp [encodeLE_length, hpos])]
  dsimp only
  have hdr : s.pos + wid + wsz ≤ ((s.data ++ (encodeLE wid idv ++ encodeLE wsz 0)) ++ payload).length := by
    simp [encodeLE_length, hpos] <;> omega
  have hplen : s.pos + (wid + wsz) + payload.length =
      ((s.data ++ (encodeLE wid idv ++ encodeLE wsz 0)) ++ payload).length := by
    simp [encodeLE_length, hpos] <;> omega
  rw [hplen, close_at_end wid wsz align _ s.pos hdr]
  have hsz : ((s.data ++ (encodeLE wid idv ++ encodeLE wsz 0)) ++ payload).length
      - s.pos - wid - wsz = payload.length := by
    simp [encodeLE_length, hpos]
  rw [hsz]
  have htk : ((s.data ++ (encodeLE wid idv ++ encodeLE wsz 0)) ++ payload).take (s.pos + wid)
      = s.data ++ encodeLE wid idv := by
    have hassoc : (s.data ++ (encodeLE wid idv ++ encodeLE wsz 0)) ++ payload
        = (s.data ++ encodeLE wid idv) ++ (encodeLE wsz 0 ++ payload) := by
      simp [List.append_assoc]
    rw [hassoc, List.take_left' (by simp [encodeLE_length, hpos])]
  have hdp : ((s.data ++ (encodeLE wid idv ++ encodeLE wsz 0)) ++ payload).drop (s.pos + wid + wsz)
      = payload :=
    List.drop_left' (by simp [encodeLE_length, hpos] <;> omega)
  rw [htk, hdp]
  simp [encodeLE_length, hpos, List.append_assoc] <;> omega

/-- Helper: the non-seekable `record` writer equals staging the record
in an empty temporary memory file with the seekable writer and copying
the staged bytes out. -/
theorem recordWriteBasic_eq (wid wsz align idv : Nat) (payload : List Nat) (s : memfile) :
    stdex.idrec.recordWriteBasic wid wsz align idv payload s =
      s.writeStream ((stdex.idrec.recordWriteFile wid wsz align idv payload
        ⟨[], 0, state_t.ok⟩).seek 0) := by
  simp only [stdex.idrec.recordWriteBasic, stdex.idrec.recordWriteFile]
  rw [openFile_append wid wsz idv ⟨[], 0, state_t.ok⟩ rfl rfl]
  simp

/-- C10: writing a record to a non-seekable generic stream
(`operator <<` on `stdex::stream::basic`, which stages the record in a
temporary memory file and copies it out) appends to the stream exactly
the same byte sequence `ID | SIZE | DATA | PAD` as writing the same
record directly to a seekable stream (`operator <<` on `basic_file`)
positioned at its end. -/
theorem write_basic_matches_file (wid wsz align idv : Nat) (payload c c' : List Nat) :
    (stdex.idrec.recordWriteBasic wid wsz align idv payload ⟨c, c.length, state_t.ok⟩).data
      = c ++ (encodeLE wid idv ++ (encodeLE wsz (payload.length % 2 ^ (8 * wsz))
          ++ (payload ++ List.replicate
               (stdex.idrec.padding align (payload.length % 2 ^ (8 * wsz))) 0))) ∧
    (stdex.idrec.recordWriteFile wid wsz align idv payload ⟨c', c'.length, state_t.ok⟩).data
      = c' ++ (encodeLE wid idv ++ (encodeLE wsz (payload.length % 2 ^ (8 * wsz))
          ++ (payload ++ List.replicate
               (stdex.idrec.padding align (payload.length % 2 ^ (8 * wsz))) 0))) := by
  constructor
  · rw [recordWriteBasic_eq]
    rw [recordWriteFile_append wid wsz align idv payload ⟨[], 0, state_t.ok⟩ rfl rfl]
    rw [seek_ok _ _ (by simp)]
    simp only [memfile.writeStream, List.drop_zero]
    rw [writeBytes_append ⟨c, c.length, state_t.ok⟩ _ rfl rfl]
    simp [List.append_assoc]
  · rw [recordWriteFile_append wid wsz align idv payload ⟨c', c'.length, state_t.ok⟩ rfl rfl]
    simp [List.append_assoc]

/-- Helper: reading a record body (SIZE field, then bounded deserialize,
then seek) from a stream laid out as `prefix | SIZE | DATA | suffix`. -/
theorem recordReadFile_spec {α : Type} (wsz align : Nat)
    (deser : List Nat → Option (α × Nat)) (a payload rest : List Nat) (t : α) (n : Nat)
    (hdeser : deser payload = some (t, n))
    (hnov : payload.length + stdex.idrec.padding align payload.length < 2 ^ (8 * wsz)) :
    stdex.idrec.recordReadFile wsz align deser
        ⟨a ++ (encodeLE wsz payload.length ++ (payload ++ rest)), a.length, state_t.ok⟩ =
      (some t,
       ⟨a ++ (encodeLE wsz payload.length ++ (payload ++ rest)),
        a.length + wsz + (payload.length + stdex.idrec.padding align payload.length),
        state_t.ok⟩) := by
  have hL : payload.length < 2 ^ (8 * wsz) := by omega
  simp only [stdex.idrec.recordReadFile, readVal_at, Nat.mod_eq_of_lt hL]
  have hwin : ((a ++ (encodeLE wsz payload.length ++ (payload ++ rest))).drop
      (a.length + wsz)).take payload.length = payload := by
    have h1 : (a ++ (encodeLE wsz payload.length ++ (payload ++ rest)))
        = (a ++ encodeLE wsz payload.length) ++ (payload ++ rest) := by
      simp [List.append_assoc]
    rw [h1, List.drop_left' (by simp [encodeLE_length]), List.take_left]
  rw [hwin, hdeser]
  simp only [Nat.mod_eq_of_lt hnov]
  rw [seek_ok _ _ (by simp)]

/-- C2: round-trip through the seekable-stream record adapter.  For any
record value whose deserializer inverts its serializer (consuming at
most the serialized bytes) and whose padded size fits `T_SIZE`: writing
the record (open, serialize, close) at the end of an ok stream and then
reading it back from its SIZE field yields the original value and leaves
the position at `start + header + size + padding`. -/
theorem record_roundtrip {α : Type} (wid wsz align idv : Nat) (pre : List Nat)
    (ser : α → List Nat) (deser : List Nat → Option (α × Nat)) (t : α) (n : Nat)
    (hrt : deser (ser t) = some (t, n))
    (hnov : (ser t).length + stdex.idrec.padding align (ser t).length < 2 ^ (8 * wsz)) :
    stdex.idrec.recordReadFile wsz align deser
        ((stdex.idrec.recordWriteFile wid wsz align idv (ser t)
            ⟨pre, pre.length, state_t.ok⟩).seek (pre.length + wid)) =
      (some t,
       ⟨(stdex.idrec.recordWriteFile wid wsz align idv (ser t)
           ⟨pre, pre.length, state_t.ok⟩).data,
        pre.length + (wid + wsz) + ((ser t).length + stdex.idrec.padding align (ser t).length),
        state_t.ok⟩) := by
  have hL : (ser t).length < 2 ^ (8 * wsz) := by omega
  rw [recordWriteFile_append wid wsz align idv (ser t) ⟨pre, pre.length, state_t.ok⟩ rfl rfl]
  simp only [Nat.mod_eq_of_lt hL]
  rw [seek_ok _ _ (by simp)]
  have hpw : pre.length + wid = (pre ++ encodeLE wid idv).length := by
    simp [encodeLE_length]
  rw [hpw]
  dsimp only
  have hr := recordReadFile_spec wsz align deser (pre ++ encodeLE wid idv) (ser t)
      (List.replicate (stdex.idrec.padding align (ser t).length) 0) t n hrt hnov
  simp only [List.append_assoc] at hr ⊢
  rw [hr]
  simp [encodeLE_length] <;> omega

/-- Witness for C2: one-byte widths, `ALIGN = 4`, value 7 serialized as
`[7]`: the record occupies `[5, 1, 7, 0, 0, 0]`, the read returns 7 and
lands at position 6 = start + header(2) + size(1) + padding(3). -/
theorem record_roundtrip_witness :
    stdex.idrec.recordReadFile (α := Nat) 1 4
        (fun bs => match bs with | b :: _ => some (b, 1) | [] => none)
        ((stdex.idrec.recordWriteFile 1 1 4 5 [7] ⟨[], 0, state_t.ok⟩).seek 1) =
      (some 7, ⟨[5, 1, 7, 0, 0, 0], 6, state_t.ok⟩) := by
  have h := record_roundtrip (α := Nat) 1 1 4 5 [] (fun v => [v])
      (fun bs => match bs with | b :: _ => some (b, 1) | [] => none) 7 1 rfl (by decide)
  exact h.trans (by decide)

/-- The serialized length of one chunk. -/
theorem chunkBytes_length (wid wsz align : Nat) (c : chunk) :
    (chunkBytes wid wsz align c).length =
      wid + (wsz + (c.payload.length + stdex.idrec.padding align c.payload.length)) := by
  simp [chunkBytes, encodeLE_length] <;> omega

/-- Helper: one `find` loop iteration over a non-matching well-formed
chunk reads its ID, `ignore`s its body, and continues right after it
(one more header read, one less unit of fuel). -/
theorem findAux_step (wid wsz align idv : Nat) (end? : Option Nat) (c : chunk)
    (pre R : List Nat) (fuel cnt : Nat)
    (hwf : chunkWF wid wsz align c) (hne : c.cid ≠ idv)
    (hcond : match end? with | none => True | some e => pre.length < e) :
    stdex.idrec.findAux wid wsz align idv end? (fuel + 1)
        ⟨pre ++ (chunkBytes wid wsz align c ++ R), pre.length, state_t.ok⟩ cnt
      = stdex.idrec.findAux wid wsz align idv end? fuel
          ⟨pre ++ (chunkBytes wid wsz align c ++ R),
           pre.length + (chunkBytes wid wsz align c).length, state_t.ok⟩ (cnt + 1) := by
  obtain ⟨hid, hnov⟩ := hwf
  have hL : c.payload.length < 2 ^ (8 * wsz) := by omega
  have hD : pre ++ (chunkBytes wid wsz align c ++ R)
      = pre ++ (encodeLE wid c.cid ++ (encodeLE wsz c.payload.length
          ++ (c.payload ++ (List.replicate (stdex.idrec.padding align c.payload.length) 0 ++ R)))) := by
    simp [chunkBytes, List.append_assoc]
  rw [hD]
  conv_lhs => rw [stdex.idrec.findAux.eq_def]
  dsimp only
  rw [if_pos (by cases end? <;> simp_all)]
  simp only [readVal_at, Nat.mod_eq_of_lt hid]
  rw [if_neg hne]
  have hig := ignore_at wsz align c.payload.length (pre ++ encodeLE wid c.cid)
      (c.payload ++ (List.replicate (stdex.idrec.padding align c.payload.length) 0 ++ R)) hL
      (by rw [Nat.mod_eq_of_lt hnov]; simp [List.length_append, List.length_replicate] <;> omega)
  simp only [List.append_assoc, List.length_append, encodeLE_length] at hig
  rw [hig]
  simp only [Nat.mod_eq_of_lt hnov]
  have hp : pre.length + wid + wsz
        + (c.payload.length + stdex.idrec.padding align c.payload.length)
      = pre.length + (chunkBytes wid wsz align c).length := by
    rw [chunkBytes_length]
    omega
  rw [hp]

/-- `chunksBytes` unfolding. -/
theorem chunksBytes_cons (wid wsz align : Nat) (c : chunk) (cs : List chunk) :
    chunksBytes wid wsz align (c :: cs)
      = chunkBytes wid wsz align c ++ chunksBytes wid wsz align cs := rfl

/-- Each chunk occupies at least one byte (its ID), so `N` chunks
occupy at least `N` bytes. -/
theorem chunksBytes_length_ge (wid wsz align : Nat) (hw : 1 ≤ wid) (cs : List chunk) :
    cs.length ≤ (chunksBytes wid wsz align cs).length := by
  induction cs with
  | nil => simp [chunksBytes]
  | cons c cs ih =>
    have hc := chunkBytes_length wid wsz align c
    simp only [chunksBytes, List.length_append, List.length_cons]
    omega

/-- Helper: scanning `N` well-formed chunks, none carrying the sought
ID, with `end` at the layout end: the loop does exactly `N` header
reads, stops at `end` with the state still ok, and reports not-found. -/
theorem findAux_scan_miss (wid wsz align idv : Nat) (cs : List chunk)
    (pre post : List Nat) (fuel cnt : Nat) (hw : 1 ≤ wid)
    (hwf : ∀ c ∈ cs, chunkWF wid wsz align c) (hno : ∀ c ∈ cs, c.cid ≠ idv)
    (hfuel : cs.length < fuel) :
    stdex.idrec.findAux wid wsz align idv
        (some (pre.length + (chunksBytes wid wsz align cs).length)) fuel
        ⟨pre ++ (chunksBytes wid wsz align cs ++ post), pre.length, state_t.ok⟩ cnt
      = (false, ⟨pre ++ (chunksBytes wid wsz align cs ++ post),
                 pre.length + (chunksBytes wid wsz align cs).length, state_t.ok⟩,
         cnt + cs.length) := by
  induction cs generalizing pre fuel cnt with
  | nil =>
    obtain ⟨f, rfl⟩ : ∃ f, fuel = f + 1 := ⟨fuel - 1, by omega⟩
    conv_lhs => rw [stdex.idrec.findAux.eq_def]
    dsimp only
    rw [if_neg (by simp [chunksBytes])]
    simp [chunksBytes]
  | cons c cs ih =>
    obtain ⟨f, rfl⟩ : ∃ f, fuel = f + 1 := ⟨fuel - 1, by omega⟩
    have hcb := chunkBytes_length wid wsz align c
    have hD0 : pre ++ (chunksBytes wid wsz align (c :: cs) ++ post)
        = pre ++ (chunkBytes wid wsz align c ++ (chunksBytes wid wsz align cs ++ post)) := by
      simp [chunksBytes, List.append_assoc]
    have hlen0 : (chunksBytes wid wsz align (c :: cs)).length
        = (chunkBytes wid wsz align c).length + (chunksBytes wid wsz align cs).length := by
      simp [chunksBytes]
    rw [hD0, hlen0]
    rw [findAux_step wid wsz align idv _ c pre _ f cnt
          (hwf c (by simp)) (hno c (by simp)) (by simp; omega)]
    have hD2 : pre ++ (chunkBytes wid wsz align c ++ (chunksBytes wid wsz align cs ++ post))
        = (pre ++ chunkBytes wid wsz align c) ++ (chunksBytes wid wsz align cs ++ post) := by
      simp [List.append_assoc]
    have hpos : pre.length + (chunkBytes wid wsz align c).length
        = (pre ++ chunkBytes wid wsz align c).length := by simp
    have hend : pre.length + ((chunkBytes wid wsz align c).length
          + (chunksBytes wid wsz align cs).length)
        = (pre ++ chunkBytes wid wsz align c).length + (chunksBytes wid wsz align cs).length := by
      simp; omega
    rw [hD2, hpos, hend]
    rw [ih (pre ++ chunkBytes wid wsz align c) f (cnt + 1)
          (fun c' hc' => hwf c' (by simp [hc'])) (fun c' hc' => hno c' (by simp [hc']))
          (by simp at hfuel; omega)]
    simp [Nat.add_comm, Nat.add_left_comm, Nat.add_assoc]

/-- Helper: scanning past non-matching chunks up to the first chunk
carrying the sought ID leaves the stream at that chunk's SIZE field and
reports success. -/
theorem findAux_scan_hit (wid wsz align idv : Nat) (cs1 : List chunk) (c : chunk)
    (cs2 : List chunk) (pre post : List Nat) (end? : Option Nat) (fuel cnt : Nat)
    (hw : 1 ≤ wid)
    (hwf1 : ∀ c' ∈ cs1, chunkWF wid wsz align c') (hno1 : ∀ c' ∈ cs1, c'.cid ≠ idv)
    (hc : c.cid = idv) (hcid : c.cid < 2 ^ (8 * wid))
    (hend : end? = none ∨
      end? = some (pre.length + (chunksBytes wid wsz align (cs1 ++ c :: cs2)).length))
    (hfuel : cs1.length < fuel) :
    stdex.idrec.findAux wid wsz align idv end? fuel
        ⟨pre ++ (chunksBytes wid wsz align (cs1 ++ c :: cs2) ++ post), pre.length, state_t.ok⟩ cnt
      = (true, ⟨pre ++ (chunksBytes wid wsz align (cs1 ++ c :: cs2) ++ post),
                pre.length + (chunksBytes wid wsz align cs1).length + wid, state_t.ok⟩,
         cnt + (cs1.length + 1)) := by
  induction cs1 generalizing pre fuel cnt with
  | nil =>
    obtain ⟨f, rfl⟩ : ∃ f, fuel = f + 1 := ⟨fuel - 1, by omega⟩
    have hcb := chunkBytes_length wid wsz align c
    have hD : pre ++ (chunksBytes wid wsz align ([] ++ c :: cs2) ++ post)
        = pre ++ (encodeLE wid c.cid ++ (encodeLE wsz c.payload.length
            ++ (c.payload ++ (List.replicate (stdex.idrec.padding align c.payload.length) 0
            ++ (chunksBytes wid wsz align cs2 ++ post))))) := by
      simp [chunksBytes, chunkBytes, List.append_assoc]
    have hDlen : (chunksBytes wid wsz align ([] ++ c :: cs2)).length
        = (chunkBytes wid wsz align c).length + (chunksBytes wid wsz align cs2).length := by
      simp [chunksBytes]
    rw [hD]
    conv_lhs => rw [stdex.idrec.findAux.eq_def]
    dsimp only
    rw [if_pos (by
      rcases hend with h | h
      · simp [h]
      · rw [h, hDlen]
        simp
        omega)]
    simp only [readVal_at, Nat.mod_eq_of_lt hcid]
    rw [if_pos hc]
    simp [chunksBytes]
  | cons c1 cs1 ih =>
    obtain ⟨f, rfl⟩ : ∃ f, fuel = f + 1 := ⟨fuel - 1, by omega⟩
    have hcb := chunkBytes_length wid wsz align c1
    have hD0 : pre ++ (chunksBytes wid wsz align ((c1 :: cs1) ++ c :: cs2) ++ post)
        = pre ++ (chunkBytes wid wsz align c1
            ++ (chunksBytes wid wsz align (cs1 ++ c :: cs2) ++ post)) := by
      simp [chunksBytes, List.append_assoc]
    rw [hD0]
    rw [findAux_step wid wsz align idv end? c1 pre _ f cnt
          (hwf1 c1 (by simp)) (hno1 c1 (by simp))
          (by
            rcases hend with h | h
            · simp [h]
            · rw [h]
              have := chunksBytes_length_ge wid wsz align hw ((c1 :: cs1) ++ c :: cs2)
              simp only [chunksBytes, List.length_append] at this ⊢
              omega)]
    have hD2 : pre ++ (chunkBytes wid wsz align c1
          ++ (chunksBytes wid wsz align (cs1 ++ c :: cs2) ++ post))
        = (pre ++ chunkBytes wid wsz align c1)
            ++ (chunksBytes wid wsz align (cs1 ++ c :: cs2) ++ post) := by
      simp [List.append_assoc]
    have hpos : pre.length + (chunkBytes wid wsz align c1).length
        = (pre ++ chunkBytes wid wsz align c1).length := by simp
    rw [hD2, hpos]
    have hend2 : end? = none ∨
        end? = some ((pre ++ chunkBytes wid wsz align c1).length
          + (chunksBytes wid wsz align (cs1 ++ c :: cs2)).length) := by
      rcases hend with h | h
      · exact Or.inl h
      · refine Or.inr ?_
        rw [h]
        congr 1
        simp [chunksBytes]
        omega
    rw [ih (pre ++ chunkBytes wid wsz align c1) f (cnt + 1)
          (fun c' hc' => hwf1 c' (by simp [hc'])) (fun c' hc' => hno1 c' (by simp [hc']))
          hend2 (by simp at hfuel; omega)]
    simp [chunksBytes, Nat.add_comm, Nat.add_left_comm, Nat.add_assoc]

/-- Helper: with the unbounded `end` sentinel and no matching chunk, the
scan runs off the end of the stream: the final ID read hits `eof` and
`find` reports not-found. -/
theorem findAux_scan_miss_unbounded (wid wsz align idv : Nat) (cs : List chunk)
    (pre : List Nat) (fuel cnt : Nat) (hw : 1 ≤ wid)
    (hwf : ∀ c ∈ cs, chunkWF wid wsz align c) (hno : ∀ c ∈ cs, c.cid ≠ idv)
    (hfuel : cs.length < fuel) :
    stdex.idrec.findAux wid wsz align idv none fuel
        ⟨pre ++ chunksBytes wid wsz align cs, pre.length, state_t.ok⟩ cnt
      = (false, ⟨pre ++ chunksBytes wid wsz align cs,
                 (pre ++ chunksBytes wid wsz align cs).length, state_t.eof⟩,
         cnt + cs.length + 1) := by
  induction cs generalizing pre fuel cnt with
  | nil =>
    obtain ⟨f, rfl⟩ : ∃ f, fuel = f + 1 := ⟨fuel - 1, by omega⟩
    conv_lhs => rw [stdex.idrec.findAux.eq_def]
    dsimp only
    rw [if_pos (by simp)]
    rw [readVal_short wid ⟨pre ++ chunksBytes wid wsz align [], pre.length, state_t.ok⟩ rfl
          (by simp [chunksBytes]; omega)]
    simp [chunksBytes]
  | cons c cs ih =>
    obtain ⟨f, rfl⟩ : ∃ f, fuel = f + 1 := ⟨fuel - 1, by omega⟩
    have hD0 : pre ++ chunksBytes wid wsz align (c :: cs)
        = pre ++ (chunkBytes wid wsz align c ++ chunksBytes wid wsz align cs) := by
      simp [chunksBytes]
    rw [hD0]
    rw [findAux_step wid wsz align idv none c pre _ f cnt
          (hwf c (by simp)) (hno c (by simp)) (by simp)]
    have hD2 : pre ++ (chunkBytes wid wsz align c ++ chunksBytes wid wsz align cs)
        = (pre ++ chunkBytes wid wsz align c) ++ chunksBytes wid wsz align cs := by
      simp [List.append_assoc]
    have hpos : pre.length + (chunkBytes wid wsz align c).length
        = (pre ++ chunkBytes wid wsz align c).length := by simp
    rw [hD2, hpos]
    rw [ih (pre ++ chunkBytes wid wsz align c) f (cnt + 1)
          (fun c' hc' => hwf c' (by simp [hc'])) (fun c' hc' => hno c' (by simp [hc']))
          (by simp at hfuel; omega)]
    simp [chunksBytes, Nat.add_comm, Nat.add_left_comm, Nat.add_assoc]

/-- C4: for a stream holding `N` well-formed chunks before `end`, none
carrying the sought ID, `find(stream, id, end)` performs exactly `N`
header (ID) reads (the third component counts ID read attempts), then
returns not-found, with the stream left exactly at `end`, state ok —
it never reads past `end`. -/
theorem find_not_found (wid wsz align idv : Nat) (cs : List chunk) (pre post : List Nat)
    (hw : 1 ≤ wid)
    (hwf : ∀ c ∈ cs, chunkWF wid wsz align c) (hno : ∀ c ∈ cs, c.cid ≠ idv) :
    stdex.idrec.find wid wsz align idv
        (some (pre.length + (chunksBytes wid wsz align cs).length))
        ⟨pre ++ (chunksBytes wid wsz align cs ++ post), pre.length, state_t.ok⟩
      = (false, ⟨pre ++ (chunksBytes wid wsz align cs ++ post),
                 pre.length + (chunksBytes wid wsz align cs).length, state_t.ok⟩,
         cs.length) := by
  unfold stdex.idrec.find
  rw [findAux_scan_miss wid wsz align idv cs pre post _ 0 hw hwf hno
        (by have := chunksBytes_length_ge wid wsz align hw cs; simp; omega)]
  simp

/-- C5: `find(stream, id, end)` on a chunk boundary.  (1) If a chunk
with the sought ID exists at this nesting level before `end` (bounded
or unbounded sentinel), `find` returns true with the stream at that
chunk's SIZE field; (2) otherwise it returns false when the position
reaches `end`; (3) with the unbounded sentinel it returns false when
the final ID read fails at the stream end. -/
theorem find_spec (wid wsz align idv : Nat) (cs1 : List chunk) (c : chunk) (cs2 : List chunk)
    (pre post : List Nat) (end? : Option Nat)
    (hw : 1 ≤ wid)
    (hwf1 : ∀ c' ∈ cs1, chunkWF wid wsz align c') (hno1 : ∀ c' ∈ cs1, c'.cid ≠ idv)
    (hc : c.cid = idv) (hcid : c.cid < 2 ^ (8 * wid))
    (hend : end? = none ∨
      end? = some (pre.length + (chunksBytes wid wsz align (cs1 ++ c :: cs2)).length)) :
    (stdex.idrec.find wid wsz align idv end?
        ⟨pre ++ (chunksBytes wid wsz align (cs1 ++ c :: cs2) ++ post), pre.length, state_t.ok⟩
      = (true, ⟨pre ++ (chunksBytes wid wsz align (cs1 ++ c :: cs2) ++ post),
                pre.length + (chunksBytes wid wsz align cs1).length + wid, state_t.ok⟩,
         cs1.length + 1))
    ∧ (∀ (ds : List chunk) (q r : List Nat),
        (∀ d ∈ ds, chunkWF wid wsz align d) → (∀ d ∈ ds, d.cid ≠ idv) →
        stdex.idrec.find wid wsz align idv
            (some (q.length + (chunksBytes wid wsz align ds).length))
            ⟨q ++ (chunksBytes wid wsz align ds ++ r), q.length, state_t.ok⟩
          = (false, ⟨q ++ (chunksBytes wid wsz align ds ++ r),
                     q.length + (chunksBytes wid wsz align ds).length, state_t.ok⟩,
             ds.length))
    ∧ (∀ (ds : List chunk) (q : List Nat),
        (∀ d ∈ ds, chunkWF wid wsz align d) → (∀ d ∈ ds, d.cid ≠ idv) →
        stdex.idrec.find wid wsz align idv none
            ⟨q ++ chunksBytes wid wsz align ds, q.length, state_t.ok⟩
          = (false, ⟨q ++ chunksBytes wid wsz align ds,
                     (q ++ chunksBytes wid wsz align ds).length, state_t.eof⟩,
             ds.length + 1)) := by
  refine ⟨?_, ?_, ?_⟩
  · unfold stdex.idrec.find
    rw [findAux_scan_hit wid wsz align idv cs1 c cs2 pre post end? _ 0 hw hwf1 hno1 hc hcid hend
          (by
            have := chunksBytes_length_ge wid wsz align hw (cs1 ++ c :: cs2)
            simp only [List.length_append, List.length_cons] at this
            simp
            omega)]
    simp
  · intro ds q r hwf hno
    unfold stdex.idrec.find
    rw [findAux_scan_miss wid wsz align idv ds q r _ 0 hw hwf hno
          (by have := chunksBytes_length_ge wid wsz align hw ds; simp; omega)]
    simp
  · intro ds q hwf hno
    unfold stdex.idrec.find
    rw [findAux_scan_miss_unbounded wid wsz align idv ds q _ 0 hw hwf hno
          (by have := chunksBytes_length_ge wid wsz align hw ds; simp; omega)]
    simp

/-- Witness for C4: two chunks `(1, [7])`, `(2, [8, 9])`, sought ID 3:
exactly 2 header reads, not-found, position at end 8. -/
theorem find_not_found_witness :
    stdex.idrec.find 1 1 2 3 (some 8) ⟨[1, 1, 7, 0, 2, 2, 8, 9, 5, 5], 0, state_t.ok⟩
      = (false, ⟨[1, 1, 7, 0, 2, 2, 8, 9, 5, 5], 8, state_t.ok⟩, 2) := by
  have h := find_not_found 1 1 2 3 [⟨1, [7]⟩, ⟨2, [8, 9]⟩] [] [5, 5]
      (by decide) (by decide) (by decide)
  exact h.trans (by decide)

/-- Witness for C5: chunks `(1, [7])`, `(2, [8, 9])`, sought ID 2:
found, stream left at the second chunk's SIZE field (position 5). -/
theorem find_spec_witness :
    stdex.idrec.find 1 1 2 2 (some 8) ⟨[1, 1, 7, 0, 2, 2, 8, 9], 0, state_t.ok⟩
      = (true, ⟨[1, 1, 7, 0, 2, 2, 8, 9], 5, state_t.ok⟩, 2) := by
  have h := (find_spec 1 1 2 2 [⟨1, [7]⟩] ⟨2, [8, 9]⟩ [] [] [] (some 8)
      (by decide) (by decide) (by decide) (by decide) (by decide) (Or.inr (by decide))).1
  exact h.trans (by decide)
